import Mathlib

/-!
Verification of the checkstyle core (`common.py` and `plugins/indentation.py`):
a shallow embedding of the Python code into Lean, together with proofs of the
behavioural properties stated in the specification.

The host tokenizer (`tokenize.generate_tokens`) and AST parser (`ast.parse`)
are external library collaborators: the embedding abstracts the tokenizer as a
function from the source text to a list of tokens, and records the guarantees
the host tokenizer provides as an explicit well-formedness predicate
(`Tokenizes`).  All code of the repository itself is translated directly from
the source.
-/

namespace Checkstyle

/-- The token kinds `common.py` distinguishes.  All kinds the code never
branches on (NAME, OP, NUMBER, STRING, ...) collapse into `OTHER`. -/
inductive TokType where
  | COMMENT
  | NL
  | DEDENT
  | NEWLINE
  | ENDMARKER
  | INDENT
  | OTHER
  deriving DecidableEq, Repr

/-- One token from the tokenize stream: its type, its text and the physical
line (1-based) of its start position.  The code only ever reads
`token[0:3]` and, of the start position, only the line. -/
structure Tok where
  ttype : TokType
  text : String
  line : Int
  deriving DecidableEq, Repr

/-- `PythonFile.SKIP_TOKENS = frozenset((tokenize.COMMENT, tokenize.NL, tokenize.DEDENT))` -/
def SKIP_TOKENS (t : TokType) : Bool :=
  t = .COMMENT || t = .NL || t = .DEDENT

/-- Python's `str.isspace` for the ASCII whitespace characters
`' '`, `\t`, `\n`, `\r`, `\v` (11), `\f` (12): true iff the string is
nonempty and all of its characters are whitespace. -/
def pyIsSpace (s : String) : Bool :=
  !s.isEmpty && s.toList.all fun c =>
    c = ' ' || c = '\t' || c = '\n' || c = '\r' || c = Char.ofNat 11 || c = Char.ofNat 12

/-- The loop `while contents[0] == '\n': start += 1; contents.pop(0)` of
`translate_logical_line`.  `none` models the `IndexError` Python raises when
the list runs empty. -/
def trimLeading : Int → List String → Option (Int × List String)
  | _, [] => none
  | start, c :: rest =>
    if c = "\n" then trimLeading (start + 1) rest else some (start, c :: rest)

/-- The loop `while contents[-1] == '\n': end -= 1; contents.pop()` of
`translate_logical_line`, phrased over the reversed list. -/
def trimTrailing : Int → List String → Option (Int × List String)
  | _, [] => none
  | e, c :: rest =>
    if c = "\n" then trimTrailing (e - 1) rest else some (e, c :: rest)

/-- `translate_logical_line(start, end, contents)` of `common.py`:
trim leading and trailing `'\n'` entries, then return
`(start, end + 1, len(contents[0]) if contents[0].isspace() else 0)`. -/
def translate_logical_line (start e : Int) (contents : List String) :
    Option (Int × Int × Int) :=
  (trimLeading start contents).bind fun p =>
    (trimTrailing e p.2.reverse).bind fun q =>
      match q.2.reverse with
      | [] => none
      | c :: _ => some (p.1, q.1 + 1, if pyIsSpace c then (c.length : Int) else 0)

/-- The token loop of `PythonFile.iter_logical_lines`, with the accumulated
`contents` buffer and `line_number_start` as explicit state.  The result is
the list of yielded `(start, stop, indent)` triples; `none` models an
exception escaping from `translate_logical_line`. -/
def iter_logical_lines_aux : List Tok → List String → Option Int →
    Option (List (Int × Int × Int))
  | [], _, _ => some []
  | tok :: rest, contents, lineStart =>
    if SKIP_TOKENS tok.ttype then
      iter_logical_lines_aux rest contents lineStart
    else
      let contents2 := contents ++ [tok.text]
      match lineStart with
      | none => iter_logical_lines_aux rest contents2 (some tok.line)
      | some s =>
        if tok.ttype = .NEWLINE ∨ tok.ttype = .ENDMARKER then
          match translate_logical_line s
              (tok.line + (if tok.ttype = .NEWLINE then 1 else -1))
              (contents2.filter fun c => c ≠ "") with
          | none => none
          | some tri =>
            match iter_logical_lines_aux rest [] none with
            | none => none
            | some tris => some (tri :: tris)
        else
          iter_logical_lines_aux rest contents2 (some s)

/-- `PythonFile.iter_logical_lines(blob)`, as a function of the token stream
of the blob. -/
def iter_logical_lines (toks : List Tok) : Option (List (Int × Int × Int)) :=
  iter_logical_lines_aux toks [] none

/-- Whether a token terminates a logical line
(`token_type in (tokenize.NEWLINE, tokenize.ENDMARKER)`). -/
def isTerm (t : TokType) : Bool :=
  t = .NEWLINE || t = .ENDMARKER

/-- The indent of a logical line as described by the specification: the width
of the first buffered token's text when that text is pure whitespace, else 0. -/
def specIndent (first : Tok) : Int :=
  if pyIsSpace first.text then (first.text.length : Int) else 0

/-- Reference version of the logical-line builder, written from the
specification's words: group the non-skip tokens at statement terminators;
for each group, the start is the first token's line, the end physical line is
the terminator's own line for a NEWLINE terminator and one less than the
marker's line for the ENDMARKER, the stop is that end plus one (exclusive),
and the indent is the first token's leading-whitespace width.  A terminator
with no accumulated content does not emit a line. -/
def logical_lines_spec_aux : List Tok → List Tok → List (Int × Int × Int)
  | [], _ => []
  | tok :: rest, acc =>
    if SKIP_TOKENS tok.ttype then
      logical_lines_spec_aux rest acc
    else
      match acc with
      | [] => logical_lines_spec_aux rest [tok]
      | first :: _ =>
        if isTerm tok.ttype then
          (first.line,
            (if tok.ttype = .NEWLINE then tok.line else tok.line - 1) + 1,
            specIndent first) :: logical_lines_spec_aux rest []
        else
          logical_lines_spec_aux rest (acc ++ [tok])

/-- Reference logical-line sequence for a token stream. -/
def logical_lines_spec (toks : List Tok) : List (Int × Int × Int) :=
  logical_lines_spec_aux toks []

/-! ### Host-tokenizer guarantees -/

/-- Per-token guarantees of the host tokenizer for a file of `L` physical
lines: positions are 1-based; the end marker carries empty text and sits on
the line just past the last real line; NEWLINE, INDENT and ordinary tokens
sit on real lines (trailing DEDENTs may share the marker's line); a NEWLINE
token's text is exactly the newline character; the text of an INDENT or
ordinary token is nonempty and is never a bare newline. -/
def TokOK (L : Int) (t : Tok) : Prop :=
  1 ≤ t.line ∧
  (t.ttype = .ENDMARKER → t.text = "" ∧ t.line = L + 1) ∧
  ((t.ttype = .NEWLINE ∨ t.ttype = .INDENT ∨ t.ttype = .OTHER) → t.line ≤ L) ∧
  (t.ttype = .NEWLINE → t.text = "\n") ∧
  ((t.ttype = .INDENT ∨ t.ttype = .OTHER) → t.text ≠ "" ∧ t.text ≠ "\n")

instance (L : Int) (t : Tok) : Decidable (TokOK L t) := by
  unfold TokOK; infer_instance

/-- Token start lines are nondecreasing along the stream, and every token
after a NEWLINE lies on a strictly later line (a NEWLINE ends its physical
line). -/
def tokLeB (a b : Tok) : Bool :=
  decide (a.line ≤ b.line) && (decide (a.ttype ≠ TokType.NEWLINE) || decide (a.line < b.line))

/-- `pairwiseLeB toks` checks `tokLeB` for every in-order pair of the
stream. -/
def pairwiseLeB : List Tok → Bool
  | [] => true
  | t :: rest => rest.all (fun u => tokLeB t u) && pairwiseLeB rest

/-- The end marker is the last token of the stream. -/
def endLast : List Tok → Bool
  | [] => true
  | t :: rest => (decide (t.ttype ≠ TokType.ENDMARKER) || rest.isEmpty) && endLast rest

/-- `groupsOK toks atStart` checks that a NEWLINE token never begins a
logical-line group: in the non-skip subsequence of the stream, a NEWLINE is
always preceded by a non-terminator token of the same group.  The host
tokenizer guarantees this: it emits NEWLINE only at the end of a line holding
statement content, and NL (skipped) for blank or comment-only lines. -/
def groupsOK : List Tok → Bool → Bool
  | [], _ => true
  | t :: rest, atStart =>
    if SKIP_TOKENS t.ttype then groupsOK rest atStart
    else if atStart then decide (t.ttype ≠ TokType.NEWLINE) && groupsOK rest false
    else if isTerm t.ttype then groupsOK rest true
    else groupsOK rest false

/-- The guarantees the host tokenizer provides for the token stream of a
source text of `L` physical lines.  Everything the proofs assume about the
external `tokenize.generate_tokens` is collected here. -/
def Tokenizes (L : Int) (toks : List Tok) : Prop :=
  (∀ t ∈ toks, TokOK L t) ∧
  pairwiseLeB toks = true ∧
  endLast toks = true ∧
  groupsOK toks true = true

instance (L : Int) (toks : List Tok) : Decidable (Tokenizes L toks) := by
  unfold Tokenizes; infer_instance

/-! ### The refinement proof for the logical-line builder -/

/-- Invariant of the accumulation buffer between terminators: only INDENT and
ordinary tokens are buffered, with nonempty non-newline texts. -/
def AccOK (acc : List Tok) : Prop :=
  ∀ t ∈ acc, (t.ttype = .INDENT ∨ t.ttype = .OTHER) ∧ t.text ≠ "" ∧ t.text ≠ "\n"

theorem trimLeading_cons_ne {c : String} (s : Int) (l : List String) (h : c ≠ "\n") :
    trimLeading s (c :: l) = some (s, c :: l) := by
  simp [trimLeading, h]

theorem trimTrailing_no_newline (e : Int) :
    ∀ (l : List String), l ≠ [] → (∀ c ∈ l, c ≠ "\n") → trimTrailing e l = some (e, l) := by
  intro l hne hall
  cases l with
  | nil => exact absurd rfl hne
  | cons c rest =>
    have : c ≠ "\n" := hall c (List.mem_cons_self c rest)
    simp [trimTrailing, this]

theorem trimTrailing_newline (e : Int) (l : List String) :
    trimTrailing e ("\n" :: l) = trimTrailing (e - 1) l := by
  simp [trimTrailing]

/-- Evaluation of `translate_logical_line` on a buffer with no newline
entries at all (the ENDMARKER-terminated case): both trimming loops are
no-ops. -/
theorem translate_no_newline (s e : Int) (c : String) (l : List String)
    (hall : ∀ x ∈ c :: l, x ≠ "\n") :
    translate_logical_line s e (c :: l) =
      some (s, e + 1, if pyIsSpace c then (c.length : Int) else 0) := by
  have hc : c ≠ "\n" := hall c (List.mem_cons_self c l)
  have hrevne : (c :: l).reverse ≠ [] := by simp
  have hrevall : ∀ x ∈ (c :: l).reverse, x ≠ "\n" := by
    intro x hx
    exact hall x (List.mem_reverse.mp hx)
  unfold translate_logical_line
  rw [trimLeading_cons_ne s l hc]
  simp only [Option.some_bind]
  rw [trimTrailing_no_newline e _ hrevne hrevall]
  simp

/-- Evaluation of `translate_logical_line` on a buffer whose only newline
entry is a single trailing `"\n"` (the NEWLINE-terminated case): the trailing
trim pops exactly the terminator's text and takes one off the end line. -/
theorem translate_trailing_newline (s e : Int) (c : String) (l : List String)
    (hall : ∀ x ∈ c :: l, x ≠ "\n") :
    translate_logical_line s e ((c :: l) ++ ["\n"]) =
      some (s, e - 1 + 1, if pyIsSpace c then (c.length : Int) else 0) := by
  have hc : c ≠ "\n" := hall c (List.mem_cons_self c l)
  have hrevne : (c :: l).reverse ≠ [] := by simp
  have hrevall : ∀ x ∈ (c :: l).reverse, x ≠ "\n" := by
    intro x hx
    exact hall x (List.mem_reverse.mp hx)
  unfold translate_logical_line
  have hcons : (c :: l) ++ ["\n"] = c :: (l ++ ["\n"]) := by simp
  rw [hcons, trimLeading_cons_ne s _ hc]
  simp only [Option.some_bind]
  have hrev : (c :: (l ++ ["\n"])).reverse = "\n" :: (c :: l).reverse := by
    simp
  rw [hrev, trimTrailing_newline, trimTrailing_no_newline (e - 1) _ hrevne hrevall]
  simp

/-! Step equations for the two loops, one per branch. -/

theorem iter_aux_skip (tok : Tok) (rest : List Tok) (contents : List String)
    (ls : Option Int) (h : SKIP_TOKENS tok.ttype = true) :
    iter_logical_lines_aux (tok :: rest) contents ls =
      iter_logical_lines_aux rest contents ls := by
  simp [iter_logical_lines_aux, h]

theorem iter_aux_first (tok : Tok) (rest : List Tok) (contents : List String)
    (h : SKIP_TOKENS tok.ttype = false) :
    iter_logical_lines_aux (tok :: rest) contents none =
      iter_logical_lines_aux rest (contents ++ [tok.text]) (some tok.line) := by
  simp [iter_logical_lines_aux, h]

theorem iter_aux_push (tok : Tok) (rest : List Tok) (contents : List String)
    (s : Int) (hskip : SKIP_TOKENS tok.ttype = false)
    (hterm : ¬(tok.ttype = TokType.NEWLINE ∨ tok.ttype = TokType.ENDMARKER)) :
    iter_logical_lines_aux (tok :: rest) contents (some s) =
      iter_logical_lines_aux rest (contents ++ [tok.text]) (some s) := by
  simp [iter_logical_lines_aux, hskip, hterm]

theorem iter_aux_term (tok : Tok) (rest : List Tok) (contents : List String)
    (s : Int) (hskip : SKIP_TOKENS tok.ttype = false)
    (hterm : tok.ttype = TokType.NEWLINE ∨ tok.ttype = TokType.ENDMARKER) :
    iter_logical_lines_aux (tok :: rest) contents (some s) =
      match translate_logical_line s
          (tok.line + (if tok.ttype = TokType.NEWLINE then 1 else -1))
          ((contents ++ [tok.text]).filter fun c => c ≠ "") with
      | none => none
      | some tri =>
        match iter_logical_lines_aux rest [] none with
        | none => none
        | some tris => some (tri :: tris) := by
  simp [iter_logical_lines_aux, hskip, hterm]

theorem spec_aux_skip (tok : Tok) (rest acc : List Tok)
    (h : SKIP_TOKENS tok.ttype = true) :
    logical_lines_spec_aux (tok :: rest) acc = logical_lines_spec_aux rest acc := by
  simp [logical_lines_spec_aux, h]

theorem spec_aux_first (tok : Tok) (rest : List Tok)
    (h : SKIP_TOKENS tok.ttype = false) :
    logical_lines_spec_aux (tok :: rest) [] = logical_lines_spec_aux rest [tok] := by
  simp [logical_lines_spec_aux, h]

theorem spec_aux_push (tok : Tok) (rest : List Tok) (first : Tok) (acctail : List Tok)
    (hskip : SKIP_TOKENS tok.ttype = false) (hterm : isTerm tok.ttype = false) :
    logical_lines_spec_aux (tok :: rest) (first :: acctail) =
      logical_lines_spec_aux rest ((first :: acctail) ++ [tok]) := by
  simp [logical_lines_spec_aux, hskip, hterm]

theorem spec_aux_term (tok : Tok) (rest : List Tok) (first : Tok) (acctail : List Tok)
    (hskip : SKIP_TOKENS tok.ttype = false) (hterm : isTerm tok.ttype = true) :
    logical_lines_spec_aux (tok :: rest) (first :: acctail) =
      (first.line, (if tok.ttype = TokType.NEWLINE then tok.line else tok.line - 1) + 1,
        specIndent first) :: logical_lines_spec_aux rest [] := by
  simp [logical_lines_spec_aux, hskip, hterm]

/-- Main refinement lemma: run over a well-formed suffix of the token stream
from a well-formed buffer state, the implementation loop of
`iter_logical_lines` computes exactly the reference sequence. -/
theorem iter_aux_refines (L : Int) :
    ∀ (toks acc : List Tok),
      (∀ t ∈ toks, TokOK L t) →
      endLast toks = true →
      groupsOK toks acc.isEmpty = true →
      AccOK acc →
      iter_logical_lines_aux toks (acc.map Tok.text) ((acc.head?).map Tok.line) =
        some (logical_lines_spec_aux toks acc) := by
  intro toks
  induction toks with
  | nil =>
    intro acc _ _ _ _
    simp [iter_logical_lines_aux, logical_lines_spec_aux]
  | cons tok rest ih =>
    intro acc hok hend hgrp hacc
    have hokrest : ∀ t ∈ rest, TokOK L t := fun t ht => hok t (List.mem_cons_of_mem _ ht)
    have htok : TokOK L tok := hok tok (List.mem_cons_self _ _)
    have hend' := hend
    simp only [endLast, Bool.and_eq_true, Bool.or_eq_true, decide_eq_true_eq,
      List.isEmpty_iff] at hend'
    obtain ⟨hendHead, hendRest⟩ := hend'
    cases hskip : SKIP_TOKENS tok.ttype with
    | true =>
      have hgrp' : groupsOK rest acc.isEmpty = true := by
        simpa [groupsOK, hskip] using hgrp
      rw [iter_aux_skip tok rest _ _ hskip, spec_aux_skip tok rest acc hskip]
      exact ih acc hokrest hendRest hgrp' hacc
    | false =>
      cases acc with
      | nil =>
        rw [show ([] : List Tok).map Tok.text = [] from rfl,
          show (([] : List Tok).head?).map Tok.line = none from rfl,
          iter_aux_first tok rest [] hskip, spec_aux_first tok rest hskip]
        by_cases hem : tok.ttype = TokType.ENDMARKER
        · have hrestnil : rest = [] := by
            rcases hendHead with h | h
            · exact absurd hem h
            · exact h
          subst hrestnil
          simp [iter_logical_lines_aux, logical_lines_spec_aux]
        · have hgrp2 : decide (tok.ttype ≠ TokType.NEWLINE) && groupsOK rest false = true := by
            simpa [groupsOK, hskip] using hgrp
          simp only [Bool.and_eq_true, decide_eq_true_eq] at hgrp2
          obtain ⟨hnn, hgrpRest⟩ := hgrp2
          have hio : tok.ttype = TokType.INDENT ∨ tok.ttype = TokType.OTHER := by
            revert hskip hnn hem
            cases tok.ttype <;> simp [SKIP_TOKENS]
          have hacc1 : AccOK [tok] := by
            intro t ht
            simp only [List.mem_singleton] at ht
            subst ht
            exact ⟨hio, (htok.2.2.2.2 hio).1, (htok.2.2.2.2 hio).2⟩
          have hrec := ih [tok] hokrest hendRest (by simpa using hgrpRest) hacc1
          simpa using hrec
      | cons first acctail =>
        have haccTextNe : ∀ x ∈ (first :: acctail).map Tok.text, x ≠ "" := by
          intro x hx
          obtain ⟨t, ht, rfl⟩ := List.mem_map.mp hx
          exact (hacc t ht).2.1
        have haccTextNn : ∀ x ∈ Tok.text first :: acctail.map Tok.text, x ≠ "\n" := by
          intro x hx
          have hx' : x ∈ (first :: acctail).map Tok.text := by simpa using hx
          obtain ⟨t, ht, rfl⟩ := List.mem_map.mp hx'
          exact (hacc t ht).2.2
        rw [show ((first :: acctail).head?).map Tok.line = some first.line from rfl]
        by_cases hterm : tok.ttype = TokType.NEWLINE ∨ tok.ttype = TokType.ENDMARKER
        · have hisTerm : isTerm tok.ttype = true := by
            rcases hterm with h | h <;> simp [isTerm, h]
          have hgrpRest : groupsOK rest true = true := by
            simpa [groupsOK, hskip, hisTerm] using hgrp
          have ihEmpty : iter_logical_lines_aux rest [] none =
              some (logical_lines_spec_aux rest []) :=
            ih [] hokrest hendRest (by simpa using hgrpRest) (by intro t ht; simp at ht)
          rw [iter_aux_term tok rest _ _ hskip hterm,
            spec_aux_term tok rest first acctail hskip hisTerm]
          rcases hterm with hnl | hem
          · -- NEWLINE-terminated group
            have htext : tok.text = "\n" := htok.2.2.2.1 hnl
            have hfilter :
                (((first :: acctail).map Tok.text ++ [tok.text]).filter fun c =>
                  decide (c ≠ "")) = Tok.text first :: acctail.map Tok.text ++ ["\n"] := by
              rw [htext]
              rw [List.filter_eq_self.mpr]
              · simp
              · intro a ha
                simp only [List.mem_append, List.mem_singleton] at ha
                rcases ha with ha | ha
                · simpa using haccTextNe a ha
                · subst ha; simp
            have htrans := translate_trailing_newline first.line (tok.line + 1)
              first.text (acctail.map Tok.text) haccTextNn
            rw [hfilter]
            rw [show (tok.line + (if tok.ttype = TokType.NEWLINE then 1 else -1)) =
              tok.line + 1 by rw [if_pos hnl]]
            rw [show Tok.text first :: acctail.map Tok.text ++ ["\n"] =
              (Tok.text first :: acctail.map Tok.text) ++ ["\n"] from rfl, htrans, ihEmpty]
            simp [hnl, specIndent]
          · -- ENDMARKER-terminated group
            have htext : tok.text = "" := (htok.2.1 hem).1
            have hnn : tok.ttype ≠ TokType.NEWLINE := by rw [hem]; intro h; cases h
            have hfilter :
                (((first :: acctail).map Tok.text ++ [tok.text]).filter fun c =>
                  decide (c ≠ "")) = Tok.text first :: acctail.map Tok.text := by
              rw [htext]
              rw [List.filter_append, List.filter_eq_self.mpr]
              · simp
              · intro a ha
                simpa using haccTextNe a ha
            have htrans := translate_no_newline first.line (tok.line + -1)
              first.text (acctail.map Tok.text) haccTextNn
            rw [hfilter]
            rw [show (tok.line + (if tok.ttype = TokType.NEWLINE then 1 else -1)) =
              tok.line + -1 by rw [if_neg hnn], htrans, ihEmpty]
            simp [hnn, specIndent]
        · -- ordinary token appended to the group
          have hterm' := hterm
          push_neg at hterm'
          obtain ⟨hnn, hem⟩ := hterm'
          have hisTerm : isTerm tok.ttype = false := by
            simp [isTerm, hnn, hem]
          have hgrpRest : groupsOK rest false = true := by
            simpa [groupsOK, hskip, hisTerm] using hgrp
          have hio : tok.ttype = TokType.INDENT ∨ tok.ttype = TokType.OTHER := by
            revert hskip hnn hem
            cases tok.ttype <;> simp [SKIP_TOKENS]
          have hacc2 : AccOK ((first :: acctail) ++ [tok]) := by
            intro t ht
            rcases List.mem_append.mp ht with h | h
            · exact hacc t h
            · simp only [List.mem_singleton] at h
              subst h
              exact ⟨hio, (htok.2.2.2.2 hio).1, (htok.2.2.2.2 hio).2⟩
          have hrec := ih ((first :: acctail) ++ [tok]) hokrest hendRest
            (by simpa using hgrpRest) hacc2
          rw [iter_aux_push tok rest _ _ hskip hterm,
            spec_aux_push tok rest first acctail hskip hisTerm]
          simpa using hrec

/-- Shared form of the refinement: on every well-formed token stream the
implementation computes the reference sequence. -/
theorem iter_eq_spec_of_tokenizes (L : Int) (toks : List Tok)
    (h : Tokenizes L toks) :
    iter_logical_lines toks = some (logical_lines_spec toks) := by
  obtain ⟨hok, _, hend, hgrp⟩ := h
  have := iter_aux_refines L toks [] hok hend (by simpa using hgrp)
    (by intro t ht; simp at ht)
  simpa [iter_logical_lines, logical_lines_spec] using this

/-- **C3, refinement.**  On every well-formed token stream, the logical-line
builder of the code computes exactly the reference sequence
`logical_lines_spec`: groups are cut at NEWLINE/ENDMARKER terminators, a
NEWLINE-ended group stops (exclusively) one past the terminator's own line, an
ENDMARKER-ended group stops one past the marker's line minus one, and each
triple is `(start, end + 1, indent)`. -/
theorem iter_logical_lines_eq_spec (L : Int) (toks : List Tok)
    (h : Tokenizes L toks) :
    iter_logical_lines toks = some (logical_lines_spec toks) :=
  iter_eq_spec_of_tokenizes L toks h

/-! ### The `PythonFile` model -/

/-- Python's `str.splitlines` on the characters of the text: lines are broken
at `\n`, `\r\n` or `\r`, and a trailing break produces no extra empty line. -/
def pySplitlinesAux : List Char → List Char → List String
  | [], [] => []
  | [], cur => [String.mk cur.reverse]
  | '\r' :: '\n' :: rest, cur => String.mk cur.reverse :: pySplitlinesAux rest []
  | c :: rest, cur =>
    if c = '\n' ∨ c = '\r' then String.mk cur.reverse :: pySplitlinesAux rest []
    else pySplitlinesAux rest (c :: cur)

/-- `blob.splitlines()` -/
def pySplitlines (s : String) : List String :=
  pySplitlinesAux s.toList []

/-- The `PythonFile` object after a successful `__init__`: the raw blob, the
filename, `self._lines` without its leading `None` padding (so the physical
line `n` is `lines[n-1]` and `len(self._lines) = lines.length + 1`), and the
logical-line triples the index was built from.  The parsed AST is owned by
the external `ast` module and no verified operation reads it, so it is not
carried. -/
structure PythonFile where
  blob : String
  filename : String
  lines : List String
  logicalLines : List (Int × Int × Int)
  deriving DecidableEq, Repr

/-- `PythonFile.iter_tokens(blob)`: delegate to the host tokenizer. -/
def PythonFile.iter_tokens (generate_tokens : String → List Tok) (blob : String) :
    List Tok :=
  generate_tokens blob

/-- `PythonFile.__init__(blob, filename)`: split the text into physical lines
and build the logical-line index once; `none` models an exception escaping
from `iter_logical_lines`. -/
def PythonFile.mk? (generate_tokens : String → List Tok) (blob filename : String) :
    Option PythonFile :=
  match iter_logical_lines (PythonFile.iter_tokens generate_tokens blob) with
  | none => none
  | some tris => some ⟨blob, filename, pySplitlines blob, tris⟩

/-- Lookup in `self._logical_lines`, the dict
`dict((start, (start, stop, indent)) for start, stop, indent in ...)`: the
key of each triple is its start component, and a later binding of the same
key overwrites an earlier one. -/
def PythonFile.lookupLogical (pf : PythonFile) (n : Int) : Option (Int × Int × Int) :=
  pf.logicalLines.reverse.find? fun t => t.1 == n

/-- `PythonFile.line_range(line_number)`: `none` models the raised
`IndexError`; otherwise the returned `slice(start, stop)` as a pair. -/
def PythonFile.line_range (pf : PythonFile) (n : Int) : Option (Int × Int) :=
  if n ≤ 0 ∨ n ≥ (pf.lines.length : Int) + 1 then none
  else
    match pf.lookupLogical n with
    | none => some (n, n + 1)
    | some (s, e, _) => some (s, e)

/-- The `tokens` property: re-tokenize the stored blob, leaving the object
state untouched.  The pair returns the produced token sequence together with
the object after the access. -/
def PythonFile.tokens (generate_tokens : String → List Tok) (pf : PythonFile) :
    List Tok × PythonFile :=
  (PythonFile.iter_tokens generate_tokens pf.blob, pf)

/-- **C2.**  `line_range(n)` raises exactly when `n ≤ 0` or `n` exceeds the
line count; for in-range `n` it returns the recorded logical-line span when
`n` is a known start, and the fallback single-line span `[n, n+1)` otherwise,
never clamping. -/
theorem line_range_cases (pf : PythonFile) (n : Int) :
    (pf.line_range n = none ↔ (n ≤ 0 ∨ (pf.lines.length : Int) < n)) ∧
    (∀ s e i, 1 ≤ n → n ≤ (pf.lines.length : Int) →
      pf.lookupLogical n = some (s, e, i) → pf.line_range n = some (s, e)) ∧
    (1 ≤ n → n ≤ (pf.lines.length : Int) →
      pf.lookupLogical n = none → pf.line_range n = some (n, n + 1)) := by
  refine ⟨?_, ?_, ?_⟩
  · constructor
    · intro h
      by_contra hcon
      push_neg at hcon
      obtain ⟨h1, h2⟩ := hcon
      have hbound : ¬(n ≤ 0 ∨ n ≥ (pf.lines.length : Int) + 1) := by omega
      rcases hl : pf.lookupLogical n with _ | ⟨s, e, i⟩ <;>
        simp [PythonFile.line_range, hbound, hl] at h
    · intro h
      have hbound : n ≤ 0 ∨ n ≥ (pf.lines.length : Int) + 1 := by omega
      simp [PythonFile.line_range, hbound]
  · intro s e i h1 h2 hl
    have hbound : ¬(n ≤ 0 ∨ n ≥ (pf.lines.length : Int) + 1) := by omega
    simp [PythonFile.line_range, hbound, hl]
  · intro h1 h2 hl
    have hbound : ¬(n ≤ 0 ∨ n ≥ (pf.lines.length : Int) + 1) := by omega
    simp [PythonFile.line_range, hbound, hl]

/-- **C2, witness.** -/
theorem line_range_cases_witness :
    PythonFile.line_range ⟨"x = 1", "t.py", ["x = 1"], [(1, 2, 0)]⟩ 5 = none :=
  (line_range_cases ⟨"x = 1", "t.py", ["x = 1"], [(1, 2, 0)]⟩ 5).1.mpr (by decide)

/-- **C10.**  The index maps each queried key to a triple whose start equals
that key, and every span `line_range` returns begins exactly at the queried
line number. -/
theorem line_range_starts_at_query (pf : PythonFile) (n : Int) :
    (∀ s e i, pf.lookupLogical n = some (s, e, i) → s = n) ∧
    (∀ s e, pf.line_range n = some (s, e) → s = n) := by
  constructor
  · intro s e i hl
    have := List.find?_some hl
    simpa using this
  · intro s e hlr
    unfold PythonFile.line_range at hlr
    by_cases hbound : n ≤ 0 ∨ n ≥ (pf.lines.length : Int) + 1
    · simp [hbound] at hlr
    · rcases hl : pf.lookupLogical n with _ | ⟨s', e', i'⟩
      · simp [hbound, hl] at hlr
        exact hlr.1.symm
      · have hs' : s' = n := by
          have := List.find?_some hl
          simpa using this
        simp [hbound, hl] at hlr
        omega

/-- **C10, witness.** -/
theorem line_range_starts_at_query_witness :
    PythonFile.line_range ⟨"x = 1", "t.py", ["x = 1"], [(1, 2, 0)]⟩ 1 = some (1, 2) ∧
      (1 : Int) = 1 :=
  ⟨by decide,
    (line_range_starts_at_query ⟨"x = 1", "t.py", ["x = 1"], [(1, 2, 0)]⟩ 1).2 1 2 (by decide)⟩

/-! ### Bounds of the logical-line spans -/

theorem ttype_disj (t : TokType) (hskip : SKIP_TOKENS t = false)
    (hem : t ≠ TokType.ENDMARKER) :
    t = TokType.NEWLINE ∨ t = TokType.INDENT ∨ t = TokType.OTHER := by
  cases t <;> simp_all [SKIP_TOKENS]

theorem ttype_em_of_term (t : TokType) (hterm : isTerm t = true)
    (hnl : t ≠ TokType.NEWLINE) : t = TokType.ENDMARKER := by
  cases t <;> simp_all [isTerm]

theorem tokLeB_le {a b : Tok} (h : tokLeB a b = true) : a.line ≤ b.line := by
  simp only [tokLeB, Bool.and_eq_true, decide_eq_true_eq] at h
  exact h.1

theorem tokLeB_lt {a b : Tok} (h : tokLeB a b = true) (hnl : a.ttype = TokType.NEWLINE) :
    a.line < b.line := by
  simp only [tokLeB, Bool.and_eq_true, Bool.or_eq_true, decide_eq_true_eq] at h
  rcases h.2 with h2 | h2
  · exact absurd hnl h2
  · exact h2

/-- Every triple the reference builder emits lies inside the file: its start
is at least 1, its stop is strictly past its start, and its stop is at most
one past the last line. -/
theorem spec_aux_bounds (L : Int) :
    ∀ (toks acc : List Tok),
      (∀ t ∈ toks, TokOK L t) →
      pairwiseLeB toks = true →
      endLast toks = true →
      (∀ first, acc.head? = some first →
        1 ≤ first.line ∧ first.line ≤ L ∧ ∀ u ∈ toks, first.line ≤ u.line) →
      ∀ tri ∈ logical_lines_spec_aux toks acc,
        1 ≤ tri.1 ∧ tri.1 < tri.2.1 ∧ tri.2.1 ≤ L + 1 := by
  intro toks
  induction toks with
  | nil =>
    intro acc _ _ _ _ tri htri
    simp [logical_lines_spec_aux] at htri
  | cons tok rest ih =>
    intro acc hok hpw hend hinv tri htri
    have hokrest : ∀ t ∈ rest, TokOK L t := fun t ht => hok t (List.mem_cons_of_mem _ ht)
    have htok : TokOK L tok := hok tok (List.mem_cons_self _ _)
    have hpw' := hpw
    simp only [pairwiseLeB, Bool.and_eq_true, List.all_eq_true] at hpw'
    obtain ⟨hpwHead, hpwRest⟩ := hpw'
    have hend' := hend
    simp only [endLast, Bool.and_eq_true, Bool.or_eq_true, decide_eq_true_eq,
      List.isEmpty_iff] at hend'
    obtain ⟨hendHead, hendRest⟩ := hend'
    cases hskip : SKIP_TOKENS tok.ttype with
    | true =>
      rw [spec_aux_skip tok rest acc hskip] at htri
      refine ih acc hokrest hpwRest hendRest ?_ tri htri
      intro first hf
      obtain ⟨h1, h2, h3⟩ := hinv first hf
      exact ⟨h1, h2, fun u hu => h3 u (List.mem_cons_of_mem _ hu)⟩
    | false =>
      cases acc with
      | nil =>
        rw [spec_aux_first tok rest hskip] at htri
        by_cases hem : tok.ttype = TokType.ENDMARKER
        · have hrestnil : rest = [] := by
            rcases hendHead with h | h
            · exact absurd hem h
            · exact h
          subst hrestnil
          simp [logical_lines_spec_aux] at htri
        · refine ih [tok] hokrest hpwRest hendRest ?_ tri htri
          intro first hf
          simp only [List.head?_cons, Option.some.injEq] at hf
          subst hf
          exact ⟨htok.1, htok.2.2.1 (ttype_disj tok.ttype hskip hem),
            fun u hu => tokLeB_le (hpwHead u hu)⟩
      | cons first acctail =>
        obtain ⟨h1, h2, h3⟩ := hinv first rfl
        cases hterm : isTerm tok.ttype with
        | true =>
          rw [spec_aux_term tok rest first acctail hskip hterm] at htri
          rcases List.mem_cons.mp htri with heq | htl
          · subst heq
            refine ⟨h1, ?_, ?_⟩
            · by_cases hnl : tok.ttype = TokType.NEWLINE
              · have hle : first.line ≤ tok.line := h3 tok (List.mem_cons_self _ _)
                simp only [hnl, ite_true]
                omega
              · have hem : tok.ttype = TokType.ENDMARKER :=
                  ttype_em_of_term tok.ttype hterm hnl
                have := (htok.2.1 hem).2
                simp only [hnl, ite_false]
                omega
            · by_cases hnl : tok.ttype = TokType.NEWLINE
              · have htl' : tok.line ≤ L := htok.2.2.1 (Or.inl hnl)
                simp only [hnl, ite_true]
                omega
              · have hem : tok.ttype = TokType.ENDMARKER :=
                  ttype_em_of_term tok.ttype hterm hnl
                have := (htok.2.1 hem).2
                simp only [hnl, ite_false]
                omega
          · refine ih [] hokrest hpwRest hendRest ?_ tri htl
            intro f hf
            simp at hf
        | false =>
          rw [spec_aux_push tok rest first acctail hskip hterm] at htri
          refine ih ((first :: acctail) ++ [tok]) hokrest hpwRest hendRest ?_ tri htri
          intro f hf
          simp only [List.cons_append, List.head?_cons, Option.some.injEq] at hf
          subst hf
          exact ⟨h1, h2, fun u hu => h3 u (List.mem_cons_of_mem _ hu)⟩

/-- **C1.**  For every source text whose token stream satisfies the host
tokenizer's guarantees and for which construction succeeds, `line_range` on
any in-range physical line number returns a span with `1 ≤ start ≤ line
count`, `stop > start` and `stop ≤ line count + 1`. -/
theorem line_range_in_bounds (generate_tokens : String → List Tok)
    (blob filename : String) (pf : PythonFile)
    (hwf : Tokenizes ((pySplitlines blob).length : Int) (generate_tokens blob))
    (hmk : PythonFile.mk? generate_tokens blob filename = some pf)
    (n : Int) (h1 : 1 ≤ n) (h2 : n ≤ (pf.lines.length : Int)) :
    ∃ s e, pf.line_range n = some (s, e) ∧
      1 ≤ s ∧ s ≤ (pf.lines.length : Int) ∧ s < e ∧
      e ≤ (pf.lines.length : Int) + 1 := by
  have hiter := iter_eq_spec_of_tokenizes _ _ hwf
  unfold PythonFile.mk? PythonFile.iter_tokens at hmk
  rw [hiter] at hmk
  simp only [Option.some.injEq] at hmk
  have hlines : pf.lines = pySplitlines blob := by rw [← hmk]
  have hlog : pf.logicalLines = logical_lines_spec (generate_tokens blob) := by rw [← hmk]
  obtain ⟨hok, hpw, hend, _⟩ := hwf
  have hbounds := spec_aux_bounds ((pySplitlines blob).length : Int) (generate_tokens blob)
    [] hok hpw hend (by intro f hf; simp at hf)
  have hbound : ¬(n ≤ 0 ∨ n ≥ (pf.lines.length : Int) + 1) := by omega
  rcases hl : pf.lookupLogical n with _ | ⟨s, e, i⟩
  · refine ⟨n, n + 1, by simp [PythonFile.line_range, hbound, hl], by omega, by omega,
      by omega, by omega⟩
  · have hmem : (s, e, i) ∈ pf.logicalLines := by
      have := List.mem_of_find?_eq_some hl
      exact List.mem_reverse.mp this
    rw [hlog] at hmem
    have hb := hbounds (s, e, i) hmem
    have hb1 : 1 ≤ s := hb.1
    have hb2 : s < e := hb.2.1
    have hb3 : e ≤ ((pySplitlines blob).length : Int) + 1 := hb.2.2
    rw [← hlines] at hb3
    refine ⟨s, e, by simp [PythonFile.line_range, hbound, hl], hb1, by omega, hb2, by omega⟩

/-- **C1, witness.**  The tokens of `"x = 1\n"`. -/
theorem line_range_in_bounds_witness :
    ∃ s e,
      PythonFile.line_range
        ⟨"x = 1\n", "t.py", pySplitlines "x = 1\n",
          [(1, 2, 0)]⟩ 1 = some (s, e) ∧
      1 ≤ s ∧ s ≤ ((pySplitlines "x = 1\n").length : Int) ∧ s < e ∧
      e ≤ ((pySplitlines "x = 1\n").length : Int) + 1 :=
  line_range_in_bounds
    (fun _ => [⟨.OTHER, "x", 1⟩, ⟨.OTHER, "=", 1⟩, ⟨.OTHER, "1", 1⟩,
      ⟨.NEWLINE, "\n", 1⟩, ⟨.ENDMARKER, "", 2⟩])
    "x = 1\n" "t.py" _ (by decide) (by decide) 1 (by decide) (by decide)

/-! ### Ordering and coverage of the spans (C4) -/

/-- Lower bound on the start lines of all emitted triples. -/
theorem spec_aux_lb (b : Int) :
    ∀ (toks acc : List Tok),
      (∀ u ∈ toks, b ≤ u.line) →
      (∀ first, acc.head? = some first → b ≤ first.line) →
      ∀ tri ∈ logical_lines_spec_aux toks acc, b ≤ tri.1 := by
  intro toks
  induction toks with
  | nil =>
    intro acc _ _ tri htri
    simp [logical_lines_spec_aux] at htri
  | cons tok rest ih =>
    intro acc hlb hinv tri htri
    have hlbrest : ∀ u ∈ rest, b ≤ u.line := fun u hu => hlb u (List.mem_cons_of_mem _ hu)
    cases hskip : SKIP_TOKENS tok.ttype with
    | true =>
      rw [spec_aux_skip tok rest acc hskip] at htri
      exact ih acc hlbrest hinv tri htri
    | false =>
      cases acc with
      | nil =>
        rw [spec_aux_first tok rest hskip] at htri
        refine ih [tok] hlbrest ?_ tri htri
        intro first hf
        simp only [List.head?_cons, Option.some.injEq] at hf
        subst hf
        exact hlb tok (List.mem_cons_self _ _)
      | cons first acctail =>
        have hfirst : b ≤ first.line := hinv first rfl
        cases hterm : isTerm tok.ttype with
        | true =>
          rw [spec_aux_term tok rest first acctail hskip hterm] at htri
          rcases List.mem_cons.mp htri with heq | htl
          · subst heq
            exact hfirst
          · exact ih [] hlbrest (by intro f hf; simp at hf) tri htl
        | false =>
          rw [spec_aux_push tok rest first acctail hskip hterm] at htri
          refine ih ((first :: acctail) ++ [tok]) hlbrest ?_ tri htri
          intro f hf
          simp only [List.cons_append, List.head?_cons, Option.some.injEq] at hf
          subst hf
          exact hfirst

/-- The spans the reference builder emits are in ascending order and
pairwise non-overlapping: each span's exclusive stop is at most the next
span's start. -/
theorem spec_aux_sorted (L : Int) :
    ∀ (toks acc : List Tok),
      (∀ t ∈ toks, TokOK L t) →
      pairwiseLeB toks = true →
      endLast toks = true →
      List.Pairwise (fun a b => a.2.1 ≤ b.1) (logical_lines_spec_aux toks acc) := by
  intro toks
  induction toks with
  | nil =>
    intro acc _ _ _
    simp [logical_lines_spec_aux]
  | cons tok rest ih =>
    intro acc hok hpw hend
    have hokrest : ∀ t ∈ rest, TokOK L t := fun t ht => hok t (List.mem_cons_of_mem _ ht)
    have hpw' := hpw
    simp only [pairwiseLeB, Bool.and_eq_true, List.all_eq_true] at hpw'
    obtain ⟨hpwHead, hpwRest⟩ := hpw'
    have hend' := hend
    simp only [endLast, Bool.and_eq_true, Bool.or_eq_true, decide_eq_true_eq,
      List.isEmpty_iff] at hend'
    obtain ⟨hendHead, hendRest⟩ := hend'
    cases hskip : SKIP_TOKENS tok.ttype with
    | true =>
      rw [spec_aux_skip tok rest acc hskip]
      exact ih acc hokrest hpwRest hendRest
    | false =>
      cases acc with
      | nil =>
        rw [spec_aux_first tok rest hskip]
        exact ih [tok] hokrest hpwRest hendRest
      | cons first acctail =>
        cases hterm : isTerm tok.ttype with
        | true =>
          rw [spec_aux_term tok rest first acctail hskip hterm]
          rw [List.pairwise_cons]
          refine ⟨?_, ih [] hokrest hpwRest hendRest⟩
          intro tri' htri'
          by_cases hnl : tok.ttype = TokType.NEWLINE
          · have hlb := spec_aux_lb (tok.line + 1) rest []
              (fun u hu => by have := tokLeB_lt (hpwHead u hu) hnl; omega)
              (by intro f hf; simp at hf) tri' htri'
            simp only [hnl, ite_true]
            omega
          · have hem : tok.ttype = TokType.ENDMARKER :=
              ttype_em_of_term tok.ttype hterm hnl
            have hrestnil : rest = [] := by
              rcases hendHead with h | h
              · exact absurd hem h
              · exact h
            subst hrestnil
            simp [logical_lines_spec_aux] at htri'
        | false =>
          rw [spec_aux_push tok rest first acctail hskip hterm]
          exact ih ((first :: acctail) ++ [tok]) hokrest hpwRest hendRest

/-- The `[start, stop)` spans of the recognized logical lines. -/
def spans (pf : PythonFile) : List (Int × Int) :=
  pf.logicalLines.map fun t => (t.1, t.2.1)

/-- Whether a span covers a physical line. -/
def coversB (sp : Int × Int) (m : Int) : Bool :=
  decide (sp.1 ≤ m) && decide (m < sp.2)

/-- Whether some recognized logical-line span covers line `m`. -/
def coveredB (pf : PythonFile) (m : Int) : Bool :=
  (spans pf).any fun sp => coversB sp m

/-- The physical line numbers of the file, `1` through the line count. -/
def fileLines (pf : PythonFile) : List Int :=
  (List.range pf.lines.length).map fun i : Nat => (i : Int) + 1

/-- The claim's literal collection: the recognized spans together with the
fallback span `[n, n+1)` of every line `n` that is not a recognized
logical-line start. -/
def cover_literal (pf : PythonFile) : List (Int × Int) :=
  spans pf ++ ((fileLines pf).filter fun n => (pf.lookupLogical n).isNone).map
    fun n => (n, n + 1)

/-- The corrected collection: the recognized spans together with the fallback
span of every line not covered by any recognized span. -/
def cover_amended (pf : PythonFile) : List (Int × Int) :=
  spans pf ++ ((fileLines pf).filter fun n => !coveredB pf n).map fun n => (n, n + 1)

/-- A line covered by some span of a pairwise-disjoint span list is covered
by exactly one of them. -/
theorem countP_le_one_of_disjoint (m : Int) :
    ∀ (l : List (Int × Int)), List.Pairwise (fun a b => a.2 ≤ b.1) l →
      l.countP (fun sp => coversB sp m) ≤ 1 := by
  intro l
  induction l with
  | nil => intro _; simp
  | cons sp rest ih =>
    intro hpw
    rw [List.pairwise_cons] at hpw
    obtain ⟨hd, hp⟩ := hpw
    cases h : coversB sp m with
    | false =>
      rw [List.countP_cons_of_neg _ _ (by simp [h])]
      exact ih hp
    | true =>
      rw [List.countP_cons_of_pos _ _ (by simp [h])]
      have hzero : rest.countP (fun sp => coversB sp m) = 0 := by
        rw [List.countP_eq_zero]
        intro b hb hcov
        simp only [coversB, Bool.and_eq_true, decide_eq_true_eq] at h hcov
        have := hd b hb
        omega
      omega

theorem mem_fileLines (pf : PythonFile) (m : Int) :
    m ∈ fileLines pf ↔ 1 ≤ m ∧ m ≤ (pf.lines.length : Int) := by
  unfold fileLines
  rw [List.mem_map]
  constructor
  · rintro ⟨i, hi, rfl⟩
    rw [List.mem_range] at hi
    omega
  · rintro ⟨h1, h2⟩
    exact ⟨(m - 1).toNat, List.mem_range.mpr (by omega), by omega⟩

theorem nodup_fileLines (pf : PythonFile) : (fileLines pf).Nodup := by
  unfold fileLines
  refine (List.nodup_range _).map ?_
  intro a b hab
  have h2 : (a : Int) + 1 = (b : Int) + 1 := hab
  omega

/-- On a list without duplicates, a predicate that holds exactly at one
member counts exactly one. -/
theorem countP_eq_one_of_nodup_mem {l : List Int} (hnd : l.Nodup) (m : Int)
    (hm : m ∈ l) (p : Int → Bool) (hp : ∀ n ∈ l, p n = true ↔ n = m) :
    l.countP p = 1 := by
  induction l with
  | nil => cases hm
  | cons a rest ih =>
    rw [List.nodup_cons] at hnd
    obtain ⟨hna, hndr⟩ := hnd
    rcases List.mem_cons.mp hm with hma | hmr
    · rw [List.countP_cons_of_pos _ _ ((hp a (List.mem_cons_self _ _)).mpr hma.symm)]
      have hz : rest.countP p = 0 := by
        rw [List.countP_eq_zero]
        intro b hb hpb
        have hbm : b = a := ((hp b (List.mem_cons_of_mem _ hb)).mp hpb).trans hma
        exact hna (hbm ▸ hb)
      omega
    · rw [List.countP_cons_of_neg]
      · exact ih hndr hmr fun n hn => hp n (List.mem_cons_of_mem _ hn)
      · intro hpa
        have := (hp a (List.mem_cons_self _ _)).mp hpa
        subst this
        exact hna hmr

/-- Concrete example: the text `"x = (\n1)\n"`, a parenthesized statement
spanning physical lines 1-2, together with its token stream. -/
def multiBlob : String := "x = (\n1)\n"

def multiToks : List Tok :=
  [⟨.OTHER, "x", 1⟩, ⟨.OTHER, "=", 1⟩, ⟨.OTHER, "(", 1⟩, ⟨.NL, "\n", 1⟩,
   ⟨.OTHER, "1", 2⟩, ⟨.OTHER, ")", 2⟩, ⟨.NEWLINE, "\n", 2⟩, ⟨.ENDMARKER, "", 3⟩]

def multiPF : PythonFile := ⟨multiBlob, "t.py", pySplitlines multiBlob, [(1, 3, 0)]⟩

/-- **C4, counterexample.**  On the two-line file `"x = (\n1)\n"` —
well-formed, successfully constructed, with the single recognized span
`[1, 3)` — physical line 2 is not a recognized start, so the claim's literal
collection contains both the span `[1, 3)` and the fallback `[2, 3)`, and
line 2 is covered twice, not exactly once. -/
theorem cover_literal_not_exactly_once :
    PythonFile.mk? (fun _ => multiToks) multiBlob "t.py" = some multiPF ∧
    Tokenizes ((pySplitlines multiBlob).length : Int) multiToks ∧
    1 ≤ (2 : Int) ∧ (2 : Int) ≤ ((pySplitlines multiBlob).length : Int) ∧
    (cover_literal multiPF).countP (fun sp => coversB sp 2) = 2 := by
  decide

/-- **C4 (amended).**  For every well-formed, successfully constructed file:
the recognized logical-line spans are pairwise non-overlapping and ordered by
ascending start line, and every physical line is covered exactly once by the
collection of the recognized spans together with the single-line fallback
spans of the lines not covered by any recognized span. -/
theorem spans_disjoint_sorted_cover (generate_tokens : String → List Tok)
    (blob filename : String) (pf : PythonFile)
    (hwf : Tokenizes ((pySplitlines blob).length : Int) (generate_tokens blob))
    (hmk : PythonFile.mk? generate_tokens blob filename = some pf) :
    List.Pairwise (fun a b => a.2.1 ≤ b.1) pf.logicalLines ∧
    List.Pairwise (fun a b => a.1 < b.1) pf.logicalLines ∧
    ∀ m : Int, 1 ≤ m → m ≤ (pf.lines.length : Int) →
      (cover_amended pf).countP (fun sp => coversB sp m) = 1 := by
  have hiter := iter_eq_spec_of_tokenizes _ _ hwf
  unfold PythonFile.mk? PythonFile.iter_tokens at hmk
  rw [hiter] at hmk
  simp only [Option.some.injEq] at hmk
  have hlog : pf.logicalLines = logical_lines_spec (generate_tokens blob) := by rw [← hmk]
  have hlines : pf.lines = pySplitlines blob := by rw [← hmk]
  obtain ⟨hok, hpw, hend, _⟩ := hwf
  have hsorted : List.Pairwise (fun a b => a.2.1 ≤ b.1) pf.logicalLines := by
    rw [hlog]
    exact spec_aux_sorted _ (generate_tokens blob) [] hok hpw hend
  have hbounds : ∀ tri ∈ pf.logicalLines,
      1 ≤ tri.1 ∧ tri.1 < tri.2.1 ∧ tri.2.1 ≤ ((pySplitlines blob).length : Int) + 1 := by
    rw [hlog]
    exact spec_aux_bounds _ (generate_tokens blob) [] hok hpw hend
      (by intro f hf; simp at hf)
  refine ⟨hsorted, ?_, ?_⟩
  · refine List.Pairwise.imp_of_mem ?_ hsorted
    intro a b ha _ hab
    have := (hbounds a ha).2.1
    omega
  · intro m hm1 hm2
    have hdisjspans : List.Pairwise (fun a b => a.2 ≤ b.1) (spans pf) := by
      unfold spans
      rw [List.pairwise_map]
      exact hsorted
    unfold cover_amended
    rw [List.countP_append]
    cases hc : coveredB pf m with
    | true =>
      have h1 : (spans pf).countP (fun sp => coversB sp m) = 1 := by
        have hle := countP_le_one_of_disjoint m (spans pf) hdisjspans
        have hpos : 0 < (spans pf).countP fun sp => coversB sp m := by
          rw [List.countP_pos_iff]
          unfold coveredB at hc
          rw [List.any_eq_true] at hc
          exact hc
        omega
      have h2 : (((fileLines pf).filter fun n => !coveredB pf n).map
          fun n => (n, n + 1)).countP (fun sp => coversB sp m) = 0 := by
        rw [List.countP_eq_zero]
        intro sp hsp
        rw [List.mem_map] at hsp
        obtain ⟨n, hn, rfl⟩ := hsp
        rw [List.mem_filter] at hn
        obtain ⟨_, hnuncov⟩ := hn
        intro hcov
        simp only [coversB, Bool.and_eq_true, decide_eq_true_eq] at hcov
        have hnm : n = m := by omega
        subst hnm
        rw [hc] at hnuncov
        cases hnuncov
      omega
    | false =>
      have h1 : (spans pf).countP (fun sp => coversB sp m) = 0 := by
        rw [List.countP_eq_zero]
        intro sp hsp hcov
        have hcm : coveredB pf m = true := by
          unfold coveredB
          rw [List.any_eq_true]
          exact ⟨sp, hsp, hcov⟩
        rw [hc] at hcm
        cases hcm
      have h2 : (((fileLines pf).filter fun n => !coveredB pf n).map
          fun n => (n, n + 1)).countP (fun sp => coversB sp m) = 1 := by
        rw [List.countP_map]
        refine countP_eq_one_of_nodup_mem ((nodup_fileLines pf).filter _) m ?_ _ ?_
        · rw [List.mem_filter]
          exact ⟨(mem_fileLines pf m).mpr ⟨hm1, hm2⟩, by rw [hc]; rfl⟩
        · intro n _
          constructor
          · intro h
            simp only [Function.comp, coversB, Bool.and_eq_true, decide_eq_true_eq] at h
            omega
          · intro h
            subst h
            simp only [Function.comp, coversB, Bool.and_eq_true, decide_eq_true_eq]
            omega
      omega

/-- **C4 (amended), witness.** -/
theorem spans_disjoint_sorted_cover_witness :
    (cover_amended multiPF).countP (fun sp => coversB sp 2) = 1 :=
  (spans_disjoint_sorted_cover (fun _ => multiToks) multiBlob "t.py" multiPF
    (by decide) (by decide)).2.2 2 (by decide) (by decide)

/-- Concrete two-statement stream for the tokens of `"x = 1\ny = 2"` (no
trailing newline): one NEWLINE-terminated and one ENDMARKER-terminated
logical line. -/
def twoStmtToks : List Tok :=
  [⟨.OTHER, "x", 1⟩, ⟨.OTHER, "=", 1⟩, ⟨.OTHER, "1", 1⟩, ⟨.NEWLINE, "\n", 1⟩,
   ⟨.OTHER, "y", 2⟩, ⟨.OTHER, "=", 2⟩, ⟨.OTHER, "2", 2⟩, ⟨.ENDMARKER, "", 3⟩]

/-- **C3, witness.** -/
theorem iter_logical_lines_eq_spec_witness :
    Tokenizes 2 twoStmtToks ∧
      iter_logical_lines twoStmtToks = some (logical_lines_spec twoStmtToks) ∧
      logical_lines_spec twoStmtToks = [(1, 2, 0), (2, 3, 0)] :=
  ⟨by decide, iter_logical_lines_eq_spec 2 twoStmtToks (by decide), by decide⟩

/-! ### The diagnostic model (`Nit`) -/

/-- The `Nit` object: severity code, owning file, raw message and optional
anchor line number (`self._line_number`). -/
structure Nit where
  severity : Int
  python_file : PythonFile
  msg : String
  lineNo : Option Int
  deriving DecidableEq, Repr

/-- `Nit.COMMENT = 0` -/
def Nit.COMMENT : Int := 0

/-- `Nit.WARNING = 1` -/
def Nit.WARNING : Int := 1

/-- `Nit.ERROR = 2` -/
def Nit.ERROR : Int := 2

/-- The keys of the `Nit.SEVERITY` dict. -/
def Nit.SEVERITY : List Int := [Nit.COMMENT, Nit.WARNING, Nit.ERROR]

/-- The values of the `Nit.SEVERITY` dict. -/
def Nit.SEVERITY_label (s : Int) : String :=
  if s = Nit.COMMENT then "COMMENT"
  else if s = Nit.WARNING then "WARNING"
  else if s = Nit.ERROR then "ERROR"
  else ""

/-- `Nit.__init__`: raise `ValueError` (`none`) unless the severity is a key
of `SEVERITY`; otherwise store the four fields. -/
def Nit.mk? (severity : Int) (python_file : PythonFile) (message : String)
    (line_number : Option Int) : Option Nit :=
  if severity ∈ Nit.SEVERITY then
    some ⟨severity, python_file, message, line_number⟩
  else none

/-- Python's `'%03d' % n`: sign-aware zero padding to width 3. -/
def pyFormat03d (n : Int) : String :=
  if n < 0 then
    let s := toString (-n)
    "-" ++ String.mk (List.replicate (2 - s.length) '0') ++ s
  else
    let s := toString n
    String.mk (List.replicate (3 - s.length) '0') ++ s

/-- Python's `'%-7s' % s`: left justification to width 7. -/
def pyLJust7 (s : String) : String :=
  s ++ String.mk (List.replicate (7 - s.length) ' ')

/-- The `Nit.line_number` property.  The outer `none` models an `IndexError`
escaping from `line_range`; `some none` is Python's `None` result, returned
when the stored anchor is falsy (`None` or `0`). -/
def Nit.line_number (nit : Nit) : Option (Option String) :=
  match nit.lineNo with
  | none => some none
  | some n =>
    if n = 0 then some none
    else
      match nit.python_file.line_range n with
      | none => none
      | some (s, e) =>
        if e - s > 1 then some (some (pyFormat03d s ++ "-" ++ pyFormat03d (e - 1)))
        else some (some (pyFormat03d s))

/-- The `Nit.message` property:
`'%-7s %s:%s %s' % (SEVERITY[severity], filename, line_number or '*', message)`. -/
def Nit.message (nit : Nit) : Option String :=
  match nit.line_number with
  | none => none
  | some ln =>
    let lnStr :=
      match ln with
      | none => "*"
      | some str => if str = "" then "*" else str
    some (pyLJust7 (Nit.SEVERITY_label nit.severity) ++ " " ++ nit.python_file.filename
      ++ ":" ++ lnStr ++ " " ++ nit.msg)

/-- **C5.**  Constructing a `Nit` fails exactly when the severity is outside
the recognized set, which is `{0, 1, 2}` = {comment, warning, error}; with a
recognized severity it stores severity, file, message and anchor. -/
theorem nit_construction (severity : Int) (pf : PythonFile) (message : String)
    (line_number : Option Int) :
    (severity ∉ Nit.SEVERITY → Nit.mk? severity pf message line_number = none) ∧
    (severity ∈ Nit.SEVERITY →
      Nit.mk? severity pf message line_number =
        some ⟨severity, pf, message, line_number⟩) ∧
    (severity ∈ Nit.SEVERITY ↔
      severity = Nit.COMMENT ∨ severity = Nit.WARNING ∨ severity = Nit.ERROR) := by
  refine ⟨?_, ?_, ?_⟩
  · intro h
    simp [Nit.mk?, h]
  · intro h
    simp [Nit.mk?, h]
  · simp [Nit.SEVERITY]

/-- **C5, witness.** -/
theorem nit_construction_witness :
    Nit.mk? 3 multiPF "m" none = none ∧
      Nit.mk? 2 multiPF "m" none = some ⟨2, multiPF, "m", none⟩ :=
  ⟨(nit_construction 3 multiPF "m" none).1 (by decide),
    (nit_construction 2 multiPF "m" none).2.1 (by decide)⟩

/-- **C7.**  The rendered line number is `"*"` (inside `message`) for an
unanchored diagnostic, the zero-padded 3-digit start for an anchor resolving
to a single line, and `"NNN-MMM"` with `MMM` the stop minus one for an anchor
resolving to a multi-line span. -/
theorem nit_rendering (nit : Nit) :
    (nit.lineNo = none →
      nit.line_number = some none ∧
      nit.message = some (pyLJust7 (Nit.SEVERITY_label nit.severity) ++ " " ++
        nit.python_file.filename ++ ":" ++ "*" ++ " " ++ nit.msg)) ∧
    (∀ n s e, nit.lineNo = some n → nit.python_file.line_range n = some (s, e) →
      (e - s ≤ 1 → nit.line_number = some (some (pyFormat03d s))) ∧
      (e - s > 1 →
        nit.line_number = some (some (pyFormat03d s ++ "-" ++ pyFormat03d (e - 1))))) := by
  constructor
  · intro h
    have h1 : nit.line_number = some none := by
      unfold Nit.line_number
      rw [h]
    refine ⟨h1, ?_⟩
    unfold Nit.message
    rw [h1]
  · intro n s e hln hlr
    have hn0 : ¬n = 0 := by
      intro h0
      subst h0
      unfold PythonFile.line_range at hlr
      rw [if_pos (Or.inl (by omega))] at hlr
      cases hlr
    constructor
    · intro hle
      simp only [Nit.line_number, hln, hlr, if_neg hn0]
      rw [if_neg (by omega : ¬(e - s > 1))]
    · intro hgt
      simp only [Nit.line_number, hln, hlr, if_neg hn0]
      rw [if_pos (by omega : e - s > 1)]

/-- **C7, witness.**  On the two-line file, an anchor at line 1 resolves to
the span `[1, 3)` and renders as `"001-002"`; an unanchored diagnostic
renders with `"*"`. -/
theorem nit_rendering_witness :
    Nit.line_number ⟨2, multiPF, "m", some 1⟩ = some (some "001-002") ∧
      Nit.message ⟨2, multiPF, "m", none⟩ = some "ERROR   t.py:* m" := by
  constructor
  · have h := ((nit_rendering ⟨2, multiPF, "m", some 1⟩).2 1 1 3 rfl (by decide)).2
      (by decide)
    rw [h]
    decide
  · have h := ((nit_rendering ⟨2, multiPF, "m", none⟩).1 rfl).2
    rw [h]
    decide

/-! ### The plugin contract: affected-line filtering (C6) -/

/-- Python's `range(start, stop)` over integers. -/
def pyRange (s e : Int) : List Int :=
  (List.range (e - s).toNat).map fun i : Nat => s + (i : Int)

/-- `CheckstylePlugin.__iter__`: filter the nits produced by `nits()`.  A nit
with no anchor, or any nit when no affected-line restriction was supplied,
passes; otherwise a nit passes iff some line of its resolved `line_range`
lies in the materialized affected-line list.  `none` models an `IndexError`
escaping from `line_range`. -/
def CheckstylePlugin.iterFilter (pf : PythonFile) (affected : Option (List Int)) :
    List Nit → Option (List Nit)
  | [] => some []
  | nit :: rest =>
    match nit.lineNo, affected with
    | none, _ =>
      (CheckstylePlugin.iterFilter pf affected rest).map fun l => nit :: l
    | some _, none =>
      (CheckstylePlugin.iterFilter pf affected rest).map fun l => nit :: l
    | some n, some aff =>
      match pf.line_range n with
      | none => none
      | some (s, e) =>
        if (pyRange s e).any fun l => aff.contains l then
          (CheckstylePlugin.iterFilter pf affected rest).map fun l => nit :: l
        else CheckstylePlugin.iterFilter pf affected rest

/-- The pass condition of the affected-line filter, as the specification
words it. -/
def NitPasses (pf : PythonFile) (affected : Option (List Int)) (nit : Nit) : Prop :=
  nit.lineNo = none ∨ affected = none ∨
  ∃ n aff s e, nit.lineNo = some n ∧ affected = some aff ∧
    pf.line_range n = some (s, e) ∧ ∃ m, s ≤ m ∧ m < e ∧ m ∈ aff

theorem mem_pyRange (s e m : Int) : m ∈ pyRange s e ↔ s ≤ m ∧ m < e := by
  unfold pyRange
  rw [List.mem_map]
  constructor
  · rintro ⟨i, hi, rfl⟩
    rw [List.mem_range] at hi
    omega
  · rintro ⟨h1, h2⟩
    exact ⟨(m - s).toNat, List.mem_range.mpr (by omega), by omega⟩

theorem any_contains_iff (s e : Int) (aff : List Int) :
    ((pyRange s e).any fun l => aff.contains l) = true ↔
      ∃ m, s ≤ m ∧ m < e ∧ m ∈ aff := by
  rw [List.any_eq_true]
  constructor
  · rintro ⟨m, hm, hc⟩
    have h := (mem_pyRange s e m).mp hm
    exact ⟨m, h.1, h.2, by simpa using hc⟩
  · rintro ⟨m, h1, h2, h3⟩
    exact ⟨m, (mem_pyRange s e m).mpr ⟨h1, h2⟩, by simpa using h3⟩

theorem iterFilter_cons_noanchor (pf : PythonFile) (affected : Option (List Int))
    (nit : Nit) (rest : List Nit) (hln : nit.lineNo = none) :
    CheckstylePlugin.iterFilter pf affected (nit :: rest) =
      (CheckstylePlugin.iterFilter pf affected rest).map fun l => nit :: l := by
  cases haff : affected <;> simp [CheckstylePlugin.iterFilter, hln]

theorem iterFilter_cons_norestrict (pf : PythonFile) (nit : Nit) (rest : List Nit)
    (n : Int) (hln : nit.lineNo = some n) :
    CheckstylePlugin.iterFilter pf none (nit :: rest) =
      (CheckstylePlugin.iterFilter pf none rest).map fun l => nit :: l := by
  simp [CheckstylePlugin.iterFilter, hln]

theorem iterFilter_cons_check_none (pf : PythonFile) (nit : Nit) (rest : List Nit)
    (n : Int) (aff : List Int) (hln : nit.lineNo = some n)
    (hlr : pf.line_range n = none) :
    CheckstylePlugin.iterFilter pf (some aff) (nit :: rest) = none := by
  simp [CheckstylePlugin.iterFilter, hln, hlr]

theorem iterFilter_cons_check_some (pf : PythonFile) (nit : Nit) (rest : List Nit)
    (n : Int) (aff : List Int) (s e : Int) (hln : nit.lineNo = some n)
    (hlr : pf.line_range n = some (s, e)) :
    CheckstylePlugin.iterFilter pf (some aff) (nit :: rest) =
      if (pyRange s e).any fun l => aff.contains l then
        (CheckstylePlugin.iterFilter pf (some aff) rest).map fun l => nit :: l
      else CheckstylePlugin.iterFilter pf (some aff) rest := by
  simp [CheckstylePlugin.iterFilter, hln, hlr]

/-- **C6.**  When the filtered iteration succeeds, a diagnostic appears in
its output iff it was produced by `nits()` and passes the affected-line
filter: no anchor, or no restriction, or some physical line of its resolved
range belongs to the affected-line list. -/
theorem plugin_iteration_filters (pf : PythonFile) (affected : Option (List Int)) :
    ∀ (nits res : List Nit),
      CheckstylePlugin.iterFilter pf affected nits = some res →
      ∀ nit : Nit, nit ∈ res ↔ nit ∈ nits ∧ NitPasses pf affected nit := by
  intro nits
  induction nits with
  | nil =>
    intro res hres nit
    simp only [CheckstylePlugin.iterFilter, Option.some.injEq] at hres
    subst hres
    simp
  | cons nd rest ih =>
    intro res hres nit
    have passThrough :
        ∀ res', CheckstylePlugin.iterFilter pf affected rest = some res' →
          res = nd :: res' → NitPasses pf affected nd →
          (nit ∈ res ↔ nit ∈ nd :: rest ∧ NitPasses pf affected nit) := by
      intro res' hrec hres' hpassnd
      subst hres'
      constructor
      · intro hmem
        rcases List.mem_cons.mp hmem with heq | hm
        · subst heq
          exact ⟨List.mem_cons_self _ _, hpassnd⟩
        · obtain ⟨h1, h2⟩ := (ih res' hrec nit).mp hm
          exact ⟨List.mem_cons_of_mem _ h1, h2⟩
      · rintro ⟨hmem, hpass⟩
        rcases List.mem_cons.mp hmem with heq | hm
        · subst heq
          exact List.mem_cons_self _ _
        · exact List.mem_cons_of_mem _ ((ih res' hrec nit).mpr ⟨hm, hpass⟩)
    rcases hln : nd.lineNo with _ | n
    · rw [iterFilter_cons_noanchor pf affected nd rest hln] at hres
      rcases hrec : CheckstylePlugin.iterFilter pf affected rest with _ | res'
      · rw [hrec, Option.map_none'] at hres
        cases hres
      · rw [hrec, Option.map_some'] at hres
        simp only [Option.some.injEq] at hres
        exact passThrough res' hrec hres.symm (Or.inl hln)
    · rcases haff : affected with _ | aff
      · subst haff
        rw [iterFilter_cons_norestrict pf nd rest n hln] at hres
        rcases hrec : CheckstylePlugin.iterFilter pf none rest with _ | res'
        · rw [hrec, Option.map_none'] at hres
          cases hres
        · rw [hrec, Option.map_some'] at hres
          simp only [Option.some.injEq] at hres
          exact passThrough res' hrec hres.symm (Or.inr (Or.inl rfl))
      · subst haff
        rcases hlr : pf.line_range n with _ | ⟨s, e⟩
        · rw [iterFilter_cons_check_none pf nd rest n aff hln hlr] at hres
          cases hres
        · rw [iterFilter_cons_check_some pf nd rest n aff s e hln hlr] at hres
          cases hany : (pyRange s e).any fun l => aff.contains l with
          | true =>
            rw [if_pos hany] at hres
            rcases hrec : CheckstylePlugin.iterFilter pf (some aff) rest with _ | res'
            · rw [hrec, Option.map_none'] at hres
              cases hres
            · rw [hrec, Option.map_some'] at hres
              simp only [Option.some.injEq] at hres
              refine passThrough res' hrec hres.symm ?_
              obtain ⟨m, h1, h2, h3⟩ := (any_contains_iff s e aff).mp hany
              exact Or.inr (Or.inr ⟨n, aff, s, e, hln, rfl, hlr, m, h1, h2, h3⟩)
          | false =>
            rw [if_neg (by intro h; rw [hany] at h; cases h)] at hres
            have hnopass : ¬NitPasses pf (some aff) nd := by
              intro hpass
              rcases hpass with h | h | h
              · rw [hln] at h
                cases h
              · cases h
              · obtain ⟨n', aff', s', e', hln', haff', hlr', m, h1, h2, h3⟩ := h
                rw [hln] at hln'
                injection hln' with hn'
                subst hn'
                injection haff' with haff'
                subst haff'
                rw [hlr] at hlr'
                injection hlr' with hlr'
                injection hlr' with hs' he'
                subst hs'
                subst he'
                have : ((pyRange s e).any fun l => aff.contains l) = true :=
                  (any_contains_iff s e aff).mpr ⟨m, h1, h2, h3⟩
                rw [hany] at this
                cases this
            constructor
            · intro hmem
              obtain ⟨h1, h2⟩ := (ih res hres nit).mp hmem
              exact ⟨List.mem_cons_of_mem _ h1, h2⟩
            · rintro ⟨hmem, hpass⟩
              rcases List.mem_cons.mp hmem with heq | hm
              · subst heq
                exact absurd hpass hnopass
              · exact (ih res hres nit).mpr ⟨hm, hpass⟩

/-- A ten-line file with no recognized logical lines, for exercising the
affected-line filter. -/
def tenLinePF : PythonFile :=
  ⟨"", "t.py", ["a", "b", "c", "d", "e", "f", "g", "h", "i", "j"], []⟩

def nit5W : Nit := ⟨2, tenLinePF, "at5", some 5⟩

def nit10W : Nit := ⟨2, tenLinePF, "at10", some 10⟩

/-- **C6, witness.**  With the affected-line set `{10}`, a diagnostic
anchored at line 5 is suppressed and one anchored at line 10 passes. -/
theorem plugin_iteration_filters_witness :
    CheckstylePlugin.iterFilter tenLinePF (some [10]) [nit5W, nit10W] =
      some [nit10W] ∧
    (nit10W ∈ [nit10W] ↔
      nit10W ∈ [nit5W, nit10W] ∧ NitPasses tenLinePF (some [10]) nit10W) ∧
    (nit5W ∈ [nit10W] ↔
      nit5W ∈ [nit5W, nit10W] ∧ NitPasses tenLinePF (some [10]) nit5W) :=
  ⟨by decide,
    plugin_iteration_filters tenLinePF (some [10]) [nit5W, nit10W] [nit10W]
      (by decide) nit10W,
    plugin_iteration_filters tenLinePF (some [10]) [nit5W, nit10W] [nit10W]
      (by decide) nit5W⟩

/-! ### The Indentation plugin (C8) -/

/-- `Indentation.INDENT_LEVEL = 2` -/
def Indentation.INDENT_LEVEL : Int := 2

/-- `Nit.ERROR` is always a recognized severity, so `StyleError` construction
succeeds. -/
theorem Nit.mk_error (pf : PythonFile) (msg : String) (ln : Option Int) :
    Nit.mk? Nit.ERROR pf msg ln = some ⟨Nit.ERROR, pf, msg, ln⟩ := by
  simp [Nit.mk?, Nit.SEVERITY]

/-- The token loop of `Indentation.nits`, with the `indents` stack of INDENT
texts as explicit state.  `none` models the `IndexError` of `indents.pop()`
on an empty stack. -/
def Indentation.nits_aux (pf : PythonFile) : List Tok → List String → Option (List Nit)
  | [], _ => some []
  | tok :: rest, indents =>
    if tok.ttype = TokType.INDENT then
      let last_indent : Int :=
        match indents.getLast? with
        | some t => (t.length : Int)
        | none => 0
      let current_indent : Int := (tok.text.length : Int)
      if current_indent - last_indent ≠ Indentation.INDENT_LEVEL then
        match Nit.mk? Nit.ERROR pf
            ("Indentation of " ++ toString (current_indent - last_indent) ++
              " instead of " ++ toString Indentation.INDENT_LEVEL) (some tok.line) with
        | none => none
        | some nit =>
          (Indentation.nits_aux pf rest (indents ++ [tok.text])).map fun l => nit :: l
      else Indentation.nits_aux pf rest (indents ++ [tok.text])
    else if tok.ttype = TokType.DEDENT then
      match indents with
      | [] => none
      | _ :: _ => Indentation.nits_aux pf rest indents.dropLast
    else Indentation.nits_aux pf rest indents

/-- `Indentation.nits()`: run the loop over `self.python_file.tokens` with an
empty stack. -/
def Indentation.nits (generate_tokens : String → List Tok) (pf : PythonFile) :
    Option (List Nit) :=
  Indentation.nits_aux pf (PythonFile.iter_tokens generate_tokens pf.blob) []

/-- Reference version of the Indentation check, written from the
specification's words: a stack of indent widths; on INDENT compare the new
width against the stack top (0 when empty) and emit an error diagnostic on
the token's line reporting the observed delta versus the expected step when
the delta is not exactly 2, then push the width; on DEDENT pop the stack. -/
def Indentation.nits_spec_aux (pf : PythonFile) : List Tok → List Int → Option (List Nit)
  | [], _ => some []
  | tok :: rest, widths =>
    if tok.ttype = TokType.INDENT then
      let top : Int := (widths.getLast?).getD 0
      let delta : Int := (tok.text.length : Int) - top
      if delta ≠ 2 then
        (Indentation.nits_spec_aux pf rest (widths ++ [(tok.text.length : Int)])).map
          fun l =>
            (⟨Nit.ERROR, pf,
              "Indentation of " ++ toString delta ++ " instead of " ++ toString (2 : Int),
              some tok.line⟩ : Nit) :: l
      else Indentation.nits_spec_aux pf rest (widths ++ [(tok.text.length : Int)])
    else if tok.ttype = TokType.DEDENT then
      match widths with
      | [] => none
      | _ :: _ => Indentation.nits_spec_aux pf rest widths.dropLast
    else Indentation.nits_spec_aux pf rest widths

/-- Reference Indentation check over a file's token stream. -/
def Indentation.nits_spec (generate_tokens : String → List Tok) (pf : PythonFile) :
    Option (List Nit) :=
  Indentation.nits_spec_aux pf (PythonFile.iter_tokens generate_tokens pf.blob) []

theorem indentation_aux_refines (pf : PythonFile) :
    ∀ (toks : List Tok) (indents : List String),
      Indentation.nits_aux pf toks indents =
        Indentation.nits_spec_aux pf toks (indents.map fun s => (s.length : Int)) := by
  intro toks
  induction toks with
  | nil =>
    intro indents
    simp [Indentation.nits_aux, Indentation.nits_spec_aux]
  | cons tok rest ih =>
    intro indents
    by_cases hind : tok.ttype = TokType.INDENT
    · have hlast : (indents.map fun s => (s.length : Int)).getLast? =
          indents.getLast?.map fun s => (s.length : Int) := by
        rw [List.getLast?_map]
      have hpush : indents.map (fun s => (s.length : Int)) ++ [(tok.text.length : Int)] =
          (indents ++ [tok.text]).map fun s => (s.length : Int) := by
        simp
      cases hgl : indents.getLast? with
      | none =>
        simp only [Indentation.nits_aux, Indentation.nits_spec_aux, hind, if_true,
          hlast, hgl, Option.map_none, Option.getD_none, Nit.mk_error]
        by_cases hdelta : (tok.text.length : Int) - 0 ≠ Indentation.INDENT_LEVEL
        · rw [if_pos hdelta, if_pos (by simpa [Indentation.INDENT_LEVEL] using hdelta)]
          rw [ih (indents ++ [tok.text]), hpush]
          rfl
        · rw [if_neg hdelta, if_neg (by simpa [Indentation.INDENT_LEVEL] using hdelta)]
          rw [ih (indents ++ [tok.text]), hpush]
      | some t =>
        simp only [Indentation.nits_aux, Indentation.nits_spec_aux, hind, if_true,
          hlast, hgl, Option.map_some, Option.getD_some, Nit.mk_error]
        by_cases hdelta : (tok.text.length : Int) - (t.length : Int) ≠ Indentation.INDENT_LEVEL
        · rw [if_pos hdelta, if_pos (by simpa [Indentation.INDENT_LEVEL] using hdelta)]
          rw [ih (indents ++ [tok.text]), hpush]
          rfl
        · rw [if_neg hdelta, if_neg (by simpa [Indentation.INDENT_LEVEL] using hdelta)]
          rw [ih (indents ++ [tok.text]), hpush]
    · by_cases hded : tok.ttype = TokType.DEDENT
      · cases indents with
        | nil =>
          simp [Indentation.nits_aux, Indentation.nits_spec_aux, hind, hded]
        | cons a as =>
          have hstep : Indentation.nits_aux pf (tok :: rest) (a :: as) =
              Indentation.nits_aux pf rest (a :: as).dropLast := by
            simp [Indentation.nits_aux, hind, hded]
          have hstep' : Indentation.nits_spec_aux pf rest
                ((a :: as).dropLast.map fun s => (s.length : Int)) =
              Indentation.nits_spec_aux pf (tok :: rest)
                ((a :: as).map fun s => (s.length : Int)) := by
            rw [List.map_dropLast]
            simp [Indentation.nits_spec_aux, hind, hded]
          rw [hstep, ih (a :: as).dropLast, hstep']
      · have hstep : Indentation.nits_aux pf (tok :: rest) indents =
            Indentation.nits_aux pf rest indents := by
          simp [Indentation.nits_aux, hind, hded]
        have hstep' : Indentation.nits_spec_aux pf (tok :: rest)
              (indents.map fun s => (s.length : Int)) =
            Indentation.nits_spec_aux pf rest (indents.map fun s => (s.length : Int)) := by
          simp [Indentation.nits_spec_aux, hind, hded]
        rw [hstep, hstep', ih indents]

/-- Concrete streams: a module-level `def` with a 4-space block, and the same
with a 2-space block. -/
def indent4Blob : String := "def f():\n    x = 1\n"

def indent4Toks : List Tok :=
  [⟨.OTHER, "def", 1⟩, ⟨.OTHER, "f", 1⟩, ⟨.OTHER, "(", 1⟩, ⟨.OTHER, ")", 1⟩,
   ⟨.OTHER, ":", 1⟩, ⟨.NEWLINE, "\n", 1⟩,
   ⟨.INDENT, "    ", 2⟩, ⟨.OTHER, "x", 2⟩, ⟨.OTHER, "=", 2⟩, ⟨.OTHER, "1", 2⟩,
   ⟨.NEWLINE, "\n", 2⟩, ⟨.DEDENT, "", 3⟩, ⟨.ENDMARKER, "", 3⟩]

def indent4PF : PythonFile :=
  ⟨indent4Blob, "t.py", pySplitlines indent4Blob, [(1, 2, 0), (2, 3, 4)]⟩

def indent2Blob : String := "def f():\n  x = 1\n"

def indent2Toks : List Tok :=
  [⟨.OTHER, "def", 1⟩, ⟨.OTHER, "f", 1⟩, ⟨.OTHER, "(", 1⟩, ⟨.OTHER, ")", 1⟩,
   ⟨.OTHER, ":", 1⟩, ⟨.NEWLINE, "\n", 1⟩,
   ⟨.INDENT, "  ", 2⟩, ⟨.OTHER, "x", 2⟩, ⟨.OTHER, "=", 2⟩, ⟨.OTHER, "1", 2⟩,
   ⟨.NEWLINE, "\n", 2⟩, ⟨.DEDENT, "", 3⟩, ⟨.ENDMARKER, "", 3⟩]

def indent2PF : PythonFile :=
  ⟨indent2Blob, "t.py", pySplitlines indent2Blob, [(1, 2, 0), (2, 3, 2)]⟩

/-- **C8.**  `Indentation.nits` computes exactly the reference state machine
of the specification: push on INDENT, pop on DEDENT, and one error on each
INDENT line whose width delta against the stack top is not the fixed step of
2.  A 4-space block under a module-level statement yields exactly one error
on the INDENT token's line with message "Indentation of 4 instead of 2";
consistent 2-space indentation yields no diagnostics. -/
theorem indentation_nits_correct :
    (∀ (generate_tokens : String → List Tok) (pf : PythonFile),
      Indentation.nits generate_tokens pf = Indentation.nits_spec generate_tokens pf) ∧
    Indentation.nits (fun _ => indent4Toks) indent4PF =
      some [⟨Nit.ERROR, indent4PF, "Indentation of 4 instead of 2", some 2⟩] ∧
    Indentation.nits (fun _ => indent2Toks) indent2PF = some [] :=
  ⟨fun generate_tokens pf => indentation_aux_refines pf _ [],
    by decide, by decide⟩

/-! ### Idempotence of `tokens` (C9) -/

/-- **C9.**  Accessing `tokens` returns the object state unchanged and the
same token sequence on every access; the sequence depends only on the stored
blob, so two files with equal blobs tokenize identically. -/
theorem tokens_idempotent (generate_tokens : String → List Tok) (pf pf' : PythonFile) :
    ((PythonFile.tokens generate_tokens pf).1 =
        (PythonFile.tokens generate_tokens
          (PythonFile.tokens generate_tokens pf).2).1 ∧
      (PythonFile.tokens generate_tokens pf).2 = pf) ∧
    (pf.blob = pf'.blob →
      (PythonFile.tokens generate_tokens pf).1 =
        (PythonFile.tokens generate_tokens pf').1) := by
  refine ⟨⟨rfl, rfl⟩, ?_⟩
  intro h
  unfold PythonFile.tokens PythonFile.iter_tokens
  rw [h]

/-- **C9, witness.** -/
theorem tokens_idempotent_witness :
    (PythonFile.tokens (fun _ => multiToks) multiPF).2 = multiPF ∧
      (PythonFile.tokens (fun _ => multiToks) multiPF).1 =
        (PythonFile.tokens (fun _ => multiToks) multiPF).1 :=
  ⟨(tokens_idempotent (fun _ => multiToks) multiPF multiPF).1.2,
    (tokens_idempotent (fun _ => multiToks) multiPF multiPF).2 rfl⟩

end Checkstyle
